import Mathlib

/-!
Verification of the hackathon-finder pipeline: a shallow embedding of
`scrapers.py` and `utils.py` (URL normalisation, deduplication, deadline
parsing and filtering, message formatting, and the aggregator
`scrape_all`), together with proofs of the specified properties.

Python strings are modelled as lists of characters (`Str`); the string
methods `strip`, `lower`, `upper` are modelled on their ASCII behaviour.
-/

/-- Python strings, modelled as lists of characters. -/
abbrev Str := List Char

/-- ASCII whitespace as stripped by Python `str.strip()` and matched by the
regex class `\s`. -/
def isPySpace (c : Char) : Bool :=
  c = ' ' || c = '\t' || c = '\n' || c = '\r' || c = '\x0b' || c = '\x0c'

/-- Model of `str.strip()`: drop whitespace from both ends. -/
def pstrip (s : Str) : Str :=
  ((s.dropWhile isPySpace).reverse.dropWhile isPySpace).reverse

/-- Model of `str.lower()` (ASCII). -/
def toLowerS (s : Str) : Str := s.map Char.toLower

/-- Model of `str.upper()` (ASCII). -/
def toUpperS (s : Str) : Str := s.map Char.toUpper

/-- Model of Python `s.startswith(pre)`. -/
def startsWithS (s pre : Str) : Bool := List.isPrefixOf pre s

/-- Model of Python substring test `pat in s`. -/
def containsSub (pat : Str) : Str → Bool
  | [] => pat.isEmpty
  | c :: rest => List.isPrefixOf pat (c :: rest) || containsSub pat rest

/-! ## URL normalisation (`scrapers.normalize_url`) -/

/-- Characters allowed inside a URL token by the regex class `[^\s'\"<>]`. -/
def allowedUrlChar (c : Char) : Bool :=
  !(isPySpace c || c = '\'' || c = '"' || c = '<' || c = '>')

/-- Trailing punctuation stripped from an extracted URL by
`url.rstrip('.,;:)\"\'')`. -/
def isTrailPunct (c : Char) : Bool :=
  c = '.' || c = ',' || c = ';' || c = ':' || c = ')' || c = '"' || c = '\''

/-- Model of `url.rstrip('.,;:)\"\'')`. -/
def rstripPunct (s : Str) : Str := (s.reverse.dropWhile isTrailPunct).reverse

/-- After a scheme prefix `pre` the regex requires at least one allowed
character; the greedy class then takes the longest run. -/
def matchAfterScheme (pre rest : Str) : Option Str :=
  match rest with
  | [] => none
  | c :: _ => if allowedUrlChar c then some (pre ++ rest.takeWhile allowedUrlChar) else none

/-- Match of `://` followed by the character class, after a four-character
scheme prefix `pre` has been read. -/
def matchColonSlash (pre rest : Str) : Option Str :=
  match rest with
  | x :: y :: z :: r2 =>
    if x = ':' && y = '/' && z = '/' then matchAfterScheme (pre ++ [x, y, z]) r2 else none
  | _ => none

/-- Match of the regex `https?://[^\s'\"<>]+` (scheme case-insensitive)
anchored at the start of `cs`, returning the matched text with its original
casing, as `m.group(0)` does.  If `https` matches but `://` does not follow,
the regex backtracks to the optional-`s`-empty branch, which then needs `:`
where an `s` stands, so it fails; the translation below reflects that. -/
def tryMatchAt (cs : Str) : Option Str :=
  match cs with
  | a :: b :: c :: d :: rest =>
    if a.toLower = 'h' && b.toLower = 't' && c.toLower = 't' && d.toLower = 'p' then
      match rest with
      | s :: x :: y :: z :: r2 =>
        if s.toLower = 's' && x = ':' && y = '/' && z = '/' then
          matchAfterScheme [a, b, c, d, s, x, y, z] r2
        else matchColonSlash [a, b, c, d] rest
      | _ => matchColonSlash [a, b, c, d] rest
    else none
  | _ => none

/-- Model of `_http_re.search`: the leftmost match of the URL regex. -/
def httpSearch : Str → Option Str
  | [] => none
  | c :: rest =>
    match tryMatchAt (c :: rest) with
    | some tok => some tok
    | none => httpSearch rest

/-- Model of `urllib.parse.urljoin`, restricted to the inputs
`normalize_url` feeds it (`raw` beginning with `/`).  The base scheme is
lowercased as `urlsplit` does; a base without `://` resolves to `raw`
itself. -/
def urljoin (base raw : Str) : Str :=
  let scheme := base.takeWhile (fun c => c != ':')
  let rest := base.drop scheme.length
  if startsWithS rest ("://".toList) then
    if startsWithS raw ("//".toList) then toLowerS scheme ++ [':'] ++ raw
    else
      toLowerS scheme ++ "://".toList ++
        ((rest.drop 3).takeWhile (fun c => c != '/' && c != '?' && c != '#')) ++ raw
  else raw

/-- Python truthiness of the optional `base` argument. -/
def baseTruthy : Option Str → Bool
  | none => false
  | some b => !b.isEmpty

/-- Model of `scrapers.normalize_url`. -/
def normalize_url (raw : Str) (base : Option Str) : Str :=
  if raw.isEmpty then []
  else
    let r := pstrip raw
    match httpSearch r with
    | some tok => rstripPunct tok
    | none =>
      if baseTruthy base && !startsWithS r ("http".toList) && startsWithS r ("/".toList) then
        urljoin (base.getD []) r
      else if startsWithS r ("http".toList) then r
      else []

/-! ## Items and deduplication (`scrapers.unique_items`) -/

/-- One discovered announcement.  The aggregator's cleaning step never
populates `deadline`; the field mirrors the optional `"deadline"` dict key
read by `filter_by_deadline` and `format_item_html`. -/
structure Item where
  title : Str
  url : Str
  deadline : Option Str
deriving DecidableEq, Repr

/-- Dedup key `(title.lower(), url.lower())`. -/
def itemKey (it : Item) : Str × Str := (toLowerS it.title, toLowerS it.url)

/-- Seen-set loop shared by `unique_items` and the final dedupe pass of
`scrape_all`: keep the first element carrying each key. -/
def dedupeFirstBy {α κ : Type} [DecidableEq κ] (key : α → κ) : List α → List κ → List α
  | [], _ => []
  | a :: rest, seen =>
    if key a ∈ seen then dedupeFirstBy key rest seen
    else a :: dedupeFirstBy key rest (key a :: seen)

/-- Cleaning applied to each `(title, url)` pair inside `unique_items`. -/
def cleanPair (p : Str × Str) : Item :=
  { title := pstrip p.1, url := normalize_url p.2 none, deadline := none }

/-- Model of the loop body of `scrapers.unique_items`. -/
def unique_items_go : List (Str × Str) → List (Str × Str) → List Item
  | [], _ => []
  | (t, u) :: rest, seen =>
    let tn := pstrip t
    let un := normalize_url u none
    let k := (toLowerS tn, toLowerS un)
    if k ∈ seen then unique_items_go rest seen
    else { title := tn, url := un, deadline := none } :: unique_items_go rest (k :: seen)

/-- Model of `scrapers.unique_items`. -/
def unique_items (items : List (Str × Str)) : List Item := unique_items_go items []

/-- Project an output item back to a `(title, url)` pair. -/
def itemToPair (it : Item) : Str × Str := (it.title, it.url)

/-! ## Deadline parsing (`utils.parse_deadline_str`)

`datetime.strptime(s, "%Y-%m-%d")` compiles to the anchored regex
`(?P<Y>\d\d\d\d)-(?P<m>1[0-2]|0[1-9]|[1-9])-(?P<d>3[01]|[12]\d|0[1-9]|[1-9])`,
requires the match to cover the whole string, and then builds a
`datetime` which validates the calendar date (rejecting year 0 and days
past the month's end).  Any failure raises, which `parse_deadline_str`
converts to `None`.  Backtracking out of a committed two-digit month
alternative can never succeed (the following character would have to be
both a digit and `-`), so the committed translation below is faithful. -/

/-- Calendar date as `(year, month, day)`. -/
structure Date where
  year : Nat
  month : Nat
  day : Nat
deriving DecidableEq, Repr

/-- Comparison of `datetime.date` values (lexicographic). -/
def dateLe (a b : Date) : Bool :=
  a.year < b.year ||
    (a.year = b.year && (a.month < b.month || (a.month = b.month && a.day ≤ b.day)))

/-- Numeric value of a digit character. -/
def digitVal (c : Char) : Nat := c.toNat - 48

/-- Gregorian leap-year rule used by `datetime`. -/
def isLeap (y : Nat) : Bool := y % 4 = 0 && (y % 100 ≠ 0 || y % 400 = 0)

/-- Days in a month, as validated by the `datetime` constructor. -/
def daysInMonth (y m : Nat) : Nat :=
  if m = 2 then (if isLeap y then 29 else 28)
  else if m = 4 || m = 6 || m = 9 || m = 11 then 30
  else 31

/-- Match of `%Y`, i.e. exactly four digits. -/
def pYear : Str → Option (Nat × Str)
  | a :: b :: c :: d :: rest =>
    if a.isDigit && b.isDigit && c.isDigit && d.isDigit then
      some (digitVal a * 1000 + digitVal b * 100 + digitVal c * 10 + digitVal d, rest)
    else none
  | _ => none

/-- Match of `%m` as `1[0-2]|0[1-9]|[1-9]` (two-digit alternatives first). -/
def pMonth : Str → Option (Nat × Str)
  | a :: b :: rest =>
    if a = '1' && (b = '0' || b = '1' || b = '2') then some (10 + digitVal b, rest)
    else if a = '0' && ('1' ≤ b && b ≤ '9') then some (digitVal b, rest)
    else if '1' ≤ a && a ≤ '9' then some (digitVal a, b :: rest)
    else none
  | [a] => if '1' ≤ a && a ≤ '9' then some (digitVal a, []) else none
  | [] => none

/-- Match of `%d` as `3[01]|[12]\d|0[1-9]|[1-9]` (alternatives in order). -/
def pDay : Str → Option (Nat × Str)
  | a :: b :: rest =>
    if a = '3' && (b = '0' || b = '1') then some (30 + digitVal b, rest)
    else if (a = '1' || a = '2') && b.isDigit then some (digitVal a * 10 + digitVal b, rest)
    else if a = '0' && ('1' ≤ b && b ≤ '9') then some (digitVal b, rest)
    else if '1' ≤ a && a ≤ '9' then some (digitVal a, b :: rest)
    else none
  | [a] => if '1' ≤ a && a ≤ '9' then some (digitVal a, []) else none
  | [] => none

/-- Calendar validation done by the `datetime` constructor. -/
def mkValidDate (y m d : Nat) : Option Date :=
  if y = 0 then none
  else if d ≤ daysInMonth y m then some { year := y, month := m, day := d }
  else none

/-- Model of `utils.parse_deadline_str`: `strptime(s, "%Y-%m-%d")`, `None`
on any failure. -/
def parse_deadline_str (s : Str) : Option Date :=
  match pYear s with
  | some (y, '-' :: r1) =>
    (match pMonth r1 with
     | some (m, '-' :: r2) =>
       (match pDay r2 with
        | some (d, leftover) => if leftover.isEmpty then mkValidDate y m d else none
        | none => none)
     | _ => none)
  | _ => none

/-! ## Deadline filtering (`utils.filter_by_deadline`) -/

/-- Source name to ordered item list, in registry insertion order. -/
abbrev ResultSet := List (Str × List Item)

/-- Keep test of `filter_by_deadline` for one item: a falsy (absent or
empty) deadline is kept; otherwise the deadline must parse and be at or
after `today`. -/
def keepByDeadline (today : Date) (it : Item) : Bool :=
  match it.deadline with
  | none => true
  | some d =>
    if d.isEmpty then true
    else
      match parse_deadline_str d with
      | some dd => dateLe today dd
      | none => false

/-- Model of `utils.filter_by_deadline`; the loop rebuilding `filtered`
site by site, item by item, is list `map` with an inner `filter`. -/
def filter_by_deadline (today : Date) (results : ResultSet) : ResultSet :=
  results.map (fun p => (p.1, p.2.filter (keepByDeadline today)))

/-! ## Message formatting (`utils.format_item_html`, `utils.format_message`) -/

/-- Model of `utils.format_item_html`: the anchor line, with a bold
deadline suffix when the deadline is truthy. -/
def format_item_html (item : Item) : Str :=
  let line := "• <a href=\"".toList ++ item.url ++ "\">".toList ++ item.title ++ "</a>".toList
  match item.deadline with
  | some d => if d.isEmpty then line else
      line ++ " <b>(Deadline: ".toList ++ d ++ ")</b>".toList
  | none => line

/-- Banner line opening every non-empty digest. -/
def bannerLine : Str := "🔥 <b>Latest Hackathons & Challenges</b>\n\n".toList

/-- Fixed message returned when every source is empty. -/
def nothingFound : Str := "😴 No active or upcoming hackathons found right now.".toList

/-- Block appended for one source with at least one item: uppercased header
then at most 10 item lines then a blank line. -/
def siteBlock (site : Str) (items : List Item) : Str :=
  "⭐ <b>".toList ++ toUpperS site ++ "</b>\n".toList ++
    ((items.take 10).map (fun it => format_item_html it ++ ['\n'])).flatten ++ ['\n']

/-- Accumulating loop of `format_message` over the sources. -/
def format_message_go : ResultSet → Str → Bool → Str × Bool
  | [], msg, empty => (msg, empty)
  | (site, items) :: rest, msg, empty =>
    if items.isEmpty then format_message_go rest msg empty
    else format_message_go rest (msg ++ siteBlock site items) false

/-- Model of `utils.format_message`. -/
def format_message (results : ResultSet) : Str :=
  let r := format_message_go results bannerLine true
  if r.2 then nothingFound else pstrip r.1

/-! ## The aggregator (`scrapers.scrape_all`)

The registered adapters perform network I/O, so `scrape_all` is embedded
as a function of the registry outcomes: each source name is paired with
either the value its adapter returned (a list of raw items) or the
exception it raised.  `fn() or []` maps a falsy return to the empty list,
which the `Except.ok` list already covers. -/

/-- Raw value an adapter may put in its returned list: a tuple of length
at least two, a shorter tuple, a dict (fields read with `.get`, absent
modelled as `none`), or any other value. -/
inductive RawItem where
  | tup (title url : Option Str)
  | shortTup
  | dict (title url deadline : Option Str)
  | other
deriving DecidableEq, Repr

/-- An adapter outcome: the returned list, or the raised exception text. -/
abbrev AdapterResult := Except Str (List RawItem)

/-- The adapter registry: source names in fixed order, each with its
outcome for this run. -/
abbrev Registry := List (Str × AdapterResult)

/-- Cleaning step of `scrape_all` for one raw item: tuples and dicts are
coerced to a title/url record, the title stripped and required non-empty,
the url re-normalised; everything else is dropped, and any deadline field
a dict carries is discarded. -/
def cleanRaw : RawItem → Option Item
  | RawItem.tup t u =>
    let title := pstrip (t.getD [])
    let url := normalize_url (u.getD []) none
    if title.isEmpty then none else some { title := title, url := url, deadline := none }
  | RawItem.shortTup => none
  | RawItem.dict t u _ =>
    let title := pstrip (t.getD [])
    let url := normalize_url (u.getD []) none
    if title.isEmpty then none else some { title := title, url := url, deadline := none }
  | RawItem.other => none

/-- Data an adapter contributed: its list on success, `[]` on an
exception (the `except` branch of `scrape_all`). -/
def adapterItems : AdapterResult → List RawItem
  | Except.ok l => l
  | Except.error _ => []

/-- Per-source pipeline of `scrape_all`: clean every raw item, then the
final seen-set dedupe pass on `(title.lower(), url.lower())`. -/
def processAdapter (res : AdapterResult) : List Item :=
  dedupeFirstBy itemKey ((adapterItems res).filterMap cleanRaw) []

/-- Model of `scrapers.scrape_all` (the `time.sleep` between adapters has
no effect on the returned value). -/
def scrape_all (reg : Registry) : ResultSet :=
  reg.map (fun p => (p.1, processAdapter p.2))

/-! ## Light relevance filter -/

/-- Modelled from the spec: the light relevance filter of §4.7 (blocklist
then allowlist over the lowercased title) appears in no file under `src/`;
its term lists and precedence are taken from the spec's words. -/
def lightBlocklist : List Str :=
  ["webinar".toList, "bootcamp".toList, "workshop".toList, "seminar".toList,
    "summit".toList, "training".toList, "announcement".toList]

/-- Modelled from the spec: the allowlisted terms of the light filter. -/
def lightAllowlist : List Str :=
  ["hack".toList, "challenge".toList, "competition".toList, "contest".toList,
    "innovation".toList, "fellowship".toList, "student challenge".toList]

/-- Modelled from the spec: keep a title iff no blocklisted term occurs in
it (checked first) and some allowlisted term occurs in it, both as
case-insensitive substring tests. -/
def light_filter_keep (title : Str) : Bool :=
  let low := toLowerS title
  if lightBlocklist.any (fun b => containsSub b low) then false
  else lightAllowlist.any (fun a => containsSub a low)

/-! ## Spec-side definitions used by the claims -/

/-- The URL normalizer exactly as §4.2 of the spec words it, in the spec's
priority order: embedded absolute URL first, then root-relative path with a
supplied base, then a raw already starting with `http`, else empty. -/
def normalize_url_spec (raw : Str) (base : Option Str) : Str :=
  match httpSearch raw with
  | some tok => rstripPunct tok
  | none =>
    match base with
    | some b =>
      if startsWithS raw ("/".toList) then urljoin b raw
      else if startsWithS raw ("http".toList) then raw
      else []
    | none =>
      if startsWithS raw ("http".toList) then raw
      else []

/-- The end-to-end scenario registry of the spec: adapter A returns one
tuple, adapter B raises. -/
def exampleRegistry : Registry :=
  [("A".toList, Except.ok [RawItem.tup (some ("Hack X".toList)) (some ("https://a/1".toList))]),
   ("B".toList, Except.error ("boom".toList))]

/-! ## Helper lemmas -/

theorem dropWhile_idem {α : Type} (p : α → Bool) :
    ∀ l : List α, (l.dropWhile p).dropWhile p = l.dropWhile p := by
  intro l
  induction l with
  | nil => rfl
  | cons a as ih =>
    by_cases h : p a
    · simp [List.dropWhile, h, ih]
    · simp [List.dropWhile, h]

theorem dropWhile_shape {α : Type} (p : α → Bool) (l : List α) :
    l.dropWhile p = [] ∨ ∃ a as, l.dropWhile p = a :: as ∧ p a = false := by
  induction l with
  | nil => exact Or.inl rfl
  | cons a as ih =>
    by_cases h : p a
    · simpa [List.dropWhile, h] using ih
    · exact Or.inr ⟨a, as, by simp [List.dropWhile, h], by simp [h]⟩

theorem pstrip_prefix_dropWhile (s : Str) :
    pstrip s <+: s.dropWhile isPySpace := by
  have h1 := List.dropWhile_suffix (l := (s.dropWhile isPySpace).reverse) isPySpace
  have h2 := List.reverse_prefix.2 h1
  rw [List.reverse_reverse] at h2
  exact h2

theorem dropWhile_pstrip (s : Str) : (pstrip s).dropWhile isPySpace = pstrip s := by
  rcases hsh : pstrip s with _ | ⟨a, rest⟩
  · rfl
  · have hpre := pstrip_prefix_dropWhile s
    rw [hsh] at hpre
    rcases hpre with ⟨ext, hext⟩
    have hfalse : isPySpace a = false := by
      rcases dropWhile_shape isPySpace s with h | ⟨b, bs, hb, hpb⟩
      · rw [h] at hext; simp at hext
      · rw [hb, List.cons_append] at hext
        injection hext with hab _
        rw [hab]; exact hpb
    simp [List.dropWhile, hfalse]

theorem pstrip_idem (s : Str) : pstrip (pstrip s) = pstrip s := by
  have h1 : (pstrip s).dropWhile isPySpace = pstrip s := dropWhile_pstrip s
  show (((pstrip s).dropWhile isPySpace).reverse.dropWhile isPySpace).reverse = pstrip s
  rw [h1]
  show ((((s.dropWhile isPySpace).reverse.dropWhile isPySpace).reverse).reverse.dropWhile
      isPySpace).reverse = pstrip s
  rw [List.reverse_reverse, dropWhile_idem]
  rfl

theorem dedupeFirstBy_sublist {α κ : Type} [DecidableEq κ] (key : α → κ) :
    ∀ (l : List α) (seen : List κ), List.Sublist (dedupeFirstBy key l seen) l := by
  intro l
  induction l with
  | nil => intro seen; exact List.Sublist.refl _
  | cons a rest ih =>
    intro seen
    by_cases h : key a ∈ seen
    · simp only [dedupeFirstBy, if_pos h]
      exact (ih seen).cons a
    · simp only [dedupeFirstBy, if_neg h]
      exact (ih (key a :: seen)).cons₂ a

theorem dedupeFirstBy_key_not_seen {α κ : Type} [DecidableEq κ] (key : α → κ) :
    ∀ (l : List α) (seen : List κ) (k : κ),
      k ∈ (dedupeFirstBy key l seen).map key → k ∉ seen := by
  intro l
  induction l with
  | nil => intro seen k h; simp [dedupeFirstBy] at h
  | cons a rest ih =>
    intro seen k h
    by_cases ha : key a ∈ seen
    · rw [dedupeFirstBy, if_pos ha] at h
      exact ih seen k h
    · rw [dedupeFirstBy, if_neg ha] at h
      simp only [List.map_cons, List.mem_cons] at h
      rcases h with h | h
      · rw [h]; exact ha
      · intro hk
        exact ih (key a :: seen) k h (List.mem_cons_of_mem _ hk)

theorem dedupeFirstBy_nodup_keys {α κ : Type} [DecidableEq κ] (key : α → κ) :
    ∀ (l : List α) (seen : List κ), ((dedupeFirstBy key l seen).map key).Nodup := by
  intro l
  induction l with
  | nil => intro seen; simp [dedupeFirstBy]
  | cons a rest ih =>
    intro seen
    by_cases ha : key a ∈ seen
    · rw [dedupeFirstBy, if_pos ha]; exact ih seen
    · rw [dedupeFirstBy, if_neg ha]
      simp only [List.map_cons, List.nodup_cons]
      refine ⟨fun hmem => ?_, ih (key a :: seen)⟩
      exact dedupeFirstBy_key_not_seen key rest (key a :: seen) (key a) hmem
        (List.mem_cons_self _ _)

/-- Keys accumulated by the seen-set after a pass of `dedupeFirstBy`. -/
def seenAfter {α κ : Type} [DecidableEq κ] (key : α → κ) : List α → List κ → List κ
  | [], seen => seen
  | a :: rest, seen =>
    if key a ∈ seen then seenAfter key rest seen
    else seenAfter key rest (key a :: seen)

theorem mem_seenAfter {α κ : Type} [DecidableEq κ] (key : α → κ) :
    ∀ (l : List α) (seen : List κ) (k : κ),
      k ∈ seenAfter key l seen ↔ k ∈ seen ∨ k ∈ (dedupeFirstBy key l seen).map key := by
  intro l
  induction l with
  | nil => intro seen k; simp [seenAfter, dedupeFirstBy]
  | cons a rest ih =>
    intro seen k
    by_cases ha : key a ∈ seen
    · rw [seenAfter, if_pos ha, dedupeFirstBy, if_pos ha]
      exact ih seen k
    · rw [seenAfter, if_neg ha, dedupeFirstBy, if_neg ha]
      rw [ih (key a :: seen) k]
      simp only [List.mem_cons, List.map_cons]
      tauto

theorem dedupeFirstBy_append {α κ : Type} [DecidableEq κ] (key : α → κ) :
    ∀ (l₁ l₂ : List α) (seen : List κ),
      dedupeFirstBy key (l₁ ++ l₂) seen =
        dedupeFirstBy key l₁ seen ++ dedupeFirstBy key l₂ (seenAfter key l₁ seen) := by
  intro l₁
  induction l₁ with
  | nil => intro l₂ seen; rfl
  | cons a rest ih =>
    intro l₂ seen
    by_cases ha : key a ∈ seen
    · rw [List.cons_append, dedupeFirstBy, if_pos ha, dedupeFirstBy, if_pos ha,
        seenAfter, if_pos ha]
      exact ih l₂ seen
    · rw [List.cons_append, dedupeFirstBy, if_neg ha, dedupeFirstBy, if_neg ha,
        seenAfter, if_neg ha, List.cons_append]
      rw [ih l₂ (key a :: seen)]

theorem dedupeFirstBy_eq_self {α κ : Type} [DecidableEq κ] (key : α → κ) :
    ∀ (l : List α) (seen : List κ), (∀ a ∈ l, key a ∉ seen) → (l.map key).Nodup →
      dedupeFirstBy key l seen = l := by
  intro l
  induction l with
  | nil => intro seen _ _; rfl
  | cons a rest ih =>
    intro seen hseen hnd
    have ha : key a ∉ seen := hseen a (List.mem_cons_self _ _)
    rw [dedupeFirstBy, if_neg ha]
    simp only [List.map_cons, List.nodup_cons] at hnd
    congr 1
    refine ih (key a :: seen) (fun b hb => ?_) hnd.2
    intro hk
    rcases List.mem_cons.1 hk with h | h
    · exact hnd.1 (h ▸ List.mem_map_of_mem key hb)
    · exact hseen b (List.mem_cons_of_mem _ hb) h

theorem unique_items_go_eq_dedupe :
    ∀ (xs : List (Str × Str)) (seen : List (Str × Str)),
      unique_items_go xs seen = dedupeFirstBy itemKey (xs.map cleanPair) seen := by
  intro xs
  induction xs with
  | nil => intro seen; rfl
  | cons p rest ih =>
    intro seen
    rcases p with ⟨t, u⟩
    show unique_items_go ((t, u) :: rest) seen = _
    rw [List.map_cons, dedupeFirstBy]
    have hkey : itemKey (cleanPair (t, u)) =
        (toLowerS (pstrip t), toLowerS (normalize_url u none)) := rfl
    rw [unique_items_go]
    simp only [hkey]
    by_cases hk : (toLowerS (pstrip t), toLowerS (normalize_url u none)) ∈ seen
    · rw [if_pos hk, if_pos hk, ih seen]
    · rw [if_neg hk, if_neg hk, ih]
      rfl

theorem startsWith_slash_shape (r : Str) (h : startsWithS r ("/".toList) = true) :
    ∃ cs, r = '/' :: cs := by
  have hl : ("/".toList : Str) = ['/'] := rfl
  rw [startsWithS, hl] at h
  cases r with
  | nil => simp [List.isPrefixOf] at h
  | cons c cs =>
    simp [List.isPrefixOf] at h
    exact ⟨cs, by rw [h]⟩

theorem slash_not_http (cs : Str) :
    startsWithS ('/' :: cs) ("http".toList) = false := by
  have hl : ("http".toList : Str) = ['h', 't', 't', 'p'] := rfl
  rw [startsWithS, hl]
  simp [List.isPrefixOf]

theorem normalize_url_eq_spec (raw : Str) (base : Option Str) (hb : base ≠ some []) :
    normalize_url raw base = normalize_url_spec (pstrip raw) base := by
  rcases raw with _ | ⟨c, cs⟩
  · show ([] : Str) = normalize_url_spec (pstrip []) base
    cases base with
    | none => rfl
    | some b => rfl
  · rw [normalize_url]
    simp only [List.isEmpty_cons, if_neg (by simp : ¬false = true)]
    rw [normalize_url_spec.eq_def]
    cases hse : httpSearch (pstrip (c :: cs)) with
    | some tok => simp
    | none =>
      simp only []
      cases base with
      | none => simp [baseTruthy]
      | some b =>
        have hbne : b ≠ [] := fun h => hb (by rw [h])
        have hbt : baseTruthy (some b) = true := by
          cases b with
          | nil => exact absurd rfl hbne
          | cons x xs => rfl
        by_cases hs : startsWithS (pstrip (c :: cs)) ("/".toList) = true
        · obtain ⟨cs2, hr2⟩ := startsWith_slash_shape _ hs
          have hh : startsWithS (pstrip (c :: cs)) ("http".toList) = false := by
            rw [hr2]; exact slash_not_http cs2
          have hsL : startsWithS (pstrip (c :: cs)) ['/'] = true := hs
          have hhL : startsWithS (pstrip (c :: cs)) ['h', 't', 't', 'p'] = false := hh
          simp [hbt, hsL, hhL]
        · have hs' : startsWithS (pstrip (c :: cs)) ("/".toList) = false :=
            Bool.eq_false_iff.2 hs
          have hsL' : startsWithS (pstrip (c :: cs)) ['/'] = false := hs'
          simp [hbt, hsL']

theorem format_message_go_spec :
    ∀ (rs : ResultSet) (msg : Str) (e : Bool),
      format_message_go rs msg e =
        (msg ++ ((rs.filter fun p => !p.2.isEmpty).map fun p => siteBlock p.1 p.2).flatten,
          e && (rs.all fun p => p.2.isEmpty)) := by
  intro rs
  induction rs with
  | nil => intro msg e; simp [format_message_go]
  | cons p rest ih =>
    intro msg e
    rcases p with ⟨site, items⟩
    by_cases hi : items.isEmpty
    · rw [format_message_go, if_pos hi, ih]
      simp [List.filter_cons, hi]
    · rw [format_message_go, if_neg hi, ih]
      have hi' : items.isEmpty = false := Bool.eq_false_iff.2 hi
      simp [List.filter_cons, hi']

theorem cleanRaw_shape {r : RawItem} {it : Item} (h : cleanRaw r = some it) :
    it.title ≠ [] ∧ pstrip it.title = it.title ∧ it.deadline = none := by
  cases r with
  | tup t u =>
    rw [cleanRaw] at h
    split at h
    · exact absurd h (by simp)
    · rename_i hne
      injection h with h'
      subst h'
      refine ⟨fun hnil => hne (by simp [show pstrip (t.getD []) = [] from hnil]), pstrip_idem _, rfl⟩
  | shortTup => exact absurd h (by simp [cleanRaw])
  | dict t u d =>
    rw [cleanRaw] at h
    split at h
    · exact absurd h (by simp)
    · rename_i hne
      injection h with h'
      subst h'
      refine ⟨fun hnil => hne (by simp [show pstrip (t.getD []) = [] from hnil]), pstrip_idem _, rfl⟩
  | other => exact absurd h (by simp [cleanRaw])

theorem mem_processAdapter {res : AdapterResult} {it : Item}
    (h : it ∈ processAdapter res) :
    it.title ≠ [] ∧ pstrip it.title = it.title ∧ it.deadline = none := by
  have hmem : it ∈ (adapterItems res).filterMap cleanRaw :=
    (dedupeFirstBy_sublist itemKey _ []).subset h
  rcases List.mem_filterMap.1 hmem with ⟨r, _, hr⟩
  exact cleanRaw_shape hr

theorem scrape_all_keys (reg : Registry) :
    (scrape_all reg).map Prod.fst = reg.map Prod.fst := by
  rw [scrape_all, List.map_map]
  rfl

theorem filter_by_deadline_of_no_deadline (today : Date) (rs : ResultSet)
    (h : ∀ p ∈ rs, ∀ it ∈ p.2, it.deadline = none) :
    filter_by_deadline today rs = rs := by
  rw [filter_by_deadline]
  have hmap : rs.map (fun p => (p.1, p.2.filter (keepByDeadline today))) = rs.map id := by
    apply List.map_congr_left
    intro p hp
    have hfix : p.2.filter (keepByDeadline today) = p.2 := by
      apply List.filter_eq_self.2
      intro it hit
      have := h p hp it hit
      simp [keepByDeadline, this]
    rw [hfix]
    exact Prod.mk.eta
  rw [hmap, List.map_id]

/-! ## Claim theorems -/

/-- C1: `scrape_all` never propagates an adapter failure: an adapter that
raises contributes the empty list for its source name while every
registered source still appears in registry order, and on the spec's
end-to-end scenario (adapter A returning the tuple ("Hack X",
"https://a/1"), adapter B raising) it returns A mapped to the one cleaned
item and B mapped to the empty list. -/
theorem scrape_all_isolates_failures :
    (∀ (reg : Registry) (name e : Str), (name, Except.error e) ∈ reg →
        (name, ([] : List Item)) ∈ scrape_all reg) ∧
    (∀ reg : Registry, (scrape_all reg).map Prod.fst = reg.map Prod.fst) ∧
    scrape_all exampleRegistry =
      [("A".toList,
        [{ title := "Hack X".toList, url := "https://a/1".toList, deadline := none }]),
       ("B".toList, [])] := by
  refine ⟨?_, scrape_all_keys, by decide⟩
  intro reg name e hmem
  exact List.mem_map_of_mem (fun p => (p.1, processAdapter p.2)) hmem

/-- Witness: in the example registry the raising adapter B indeed
contributes the empty list. -/
theorem scrape_all_isolates_failures_witness :
    ("B".toList, ([] : List Item)) ∈ scrape_all exampleRegistry :=
  scrape_all_isolates_failures.1 exampleRegistry ("B".toList) ("boom".toList)
    (List.mem_cons_of_mem _ (List.mem_cons_self _ _))

/-- C7: every item `scrape_all` returns carries only a title and a url
(the modelled deadline field is `none`: any deadline an adapter supplied
is discarded by the cleaning step), and consequently `filter_by_deadline`
is the identity on `scrape_all`'s output. -/
theorem scrape_all_no_deadline_filter_id :
    (∀ reg : Registry,
      ((scrape_all reg).all fun p => p.2.all fun it => it.deadline.isNone) = true) ∧
    (∀ (today : Date) (reg : Registry),
      filter_by_deadline today (scrape_all reg) = scrape_all reg) := by
  have hdl : ∀ reg : Registry, ∀ p ∈ scrape_all reg, ∀ it ∈ p.2, it.deadline = none := by
    intro reg p hp it hit
    rcases List.mem_map.1 hp with ⟨q, _, hq⟩
    rw [← hq] at hit
    exact (mem_processAdapter hit).2.2
  constructor
  · intro reg
    rw [List.all_eq_true]
    intro p hp
    rw [List.all_eq_true]
    intro it hit
    simp [hdl reg p hp it hit]
  · intro today reg
    exact filter_by_deadline_of_no_deadline today _ (hdl reg)

/-- C9: the ResultSet of `scrape_all` has exactly the registered source
names in registry order; every item has a non-empty, trimmed title; within
one source the `(title.lower(), url.lower())` keys are pairwise distinct;
and on duplicates the first-seen item wins — appending one raw item to an
adapter's output appends its cleaned record exactly when its key is new. -/
theorem scrape_all_resultset_invariants :
    (∀ reg : Registry, (scrape_all reg).map Prod.fst = reg.map Prod.fst) ∧
    (∀ reg : Registry, ∀ p ∈ scrape_all reg, ∀ it ∈ p.2,
        it.title ≠ [] ∧ pstrip it.title = it.title) ∧
    (∀ reg : Registry, ∀ p ∈ scrape_all reg, (p.2.map itemKey).Nodup) ∧
    (∀ (l : List RawItem) (r : RawItem),
      processAdapter (Except.ok (l ++ [r])) =
        processAdapter (Except.ok l) ++
          (match cleanRaw r with
           | none => []
           | some it =>
             if itemKey it ∈ (processAdapter (Except.ok l)).map itemKey then []
             else [it])) := by
  refine ⟨scrape_all_keys, ?_, ?_, ?_⟩
  · intro reg p hp it hit
    rcases List.mem_map.1 hp with ⟨q, _, hq⟩
    rw [← hq] at hit
    exact ⟨(mem_processAdapter hit).1, (mem_processAdapter hit).2.1⟩
  · intro reg p hp
    rcases List.mem_map.1 hp with ⟨q, _, hq⟩
    rw [← hq]
    exact dedupeFirstBy_nodup_keys itemKey _ []
  · intro l r
    show dedupeFirstBy itemKey ((l ++ [r]).filterMap cleanRaw) [] = _
    rw [List.filterMap_append, dedupeFirstBy_append]
    cases hcr : cleanRaw r with
    | none => simp [List.filterMap, hcr, dedupeFirstBy, processAdapter, adapterItems]
    | some it =>
      have h1 : ([r].filterMap cleanRaw) = [it] := by simp [List.filterMap, hcr]
      rw [h1]
      dsimp only
      have hiff := mem_seenAfter itemKey (l.filterMap cleanRaw) [] (itemKey it)
      simp only [List.not_mem_nil, false_or] at hiff
      by_cases hk : itemKey it ∈ (processAdapter (Except.ok l)).map itemKey
      · have hk' : itemKey it ∈ seenAfter itemKey (l.filterMap cleanRaw) [] := hiff.2 hk
        rw [dedupeFirstBy, if_pos hk', if_pos hk]
        simp [processAdapter, adapterItems, dedupeFirstBy]
      · have hk' : itemKey it ∉ seenAfter itemKey (l.filterMap cleanRaw) [] :=
          fun hmem => hk (hiff.1 hmem)
        rw [dedupeFirstBy, if_neg hk', if_neg hk]
        simp [processAdapter, adapterItems, dedupeFirstBy]

/-- Witness: the invariants instantiated on the example registry's source
A and its single item. -/
theorem scrape_all_resultset_invariants_witness :
    (("Hack X".toList ≠ ([] : Str)) ∧ pstrip ("Hack X".toList) = "Hack X".toList) ∧
    (([{ title := "Hack X".toList, url := "https://a/1".toList, deadline := none }].map
        itemKey).Nodup) :=
  ⟨scrape_all_resultset_invariants.2.1 exampleRegistry
      ("A".toList, [{ title := "Hack X".toList, url := "https://a/1".toList, deadline := none }])
      (by decide)
      { title := "Hack X".toList, url := "https://a/1".toList, deadline := none } (by decide),
    scrape_all_resultset_invariants.2.2.1 exampleRegistry
      ("A".toList, [{ title := "Hack X".toList, url := "https://a/1".toList, deadline := none }])
      (by decide)⟩

/-- C3 (counterexample): `unique_items` is not idempotent.  On the input
[("T", "HTTP://...")] it outputs url "HTTP://" (regex match, trailing dots
stripped); a second pass finds no regex match in "HTTP://" and, since
`startswith("http")` is case-sensitive, maps the url to "", changing the
output. -/
theorem unique_items_not_idempotent :
    unique_items ((unique_items [("T".toList, "HTTP://...".toList)]).map itemToPair) ≠
      unique_items [("T".toList, "HTTP://...".toList)] := by decide

/-- C3 (amended): the deduplicator's output is a sublist of the cleaned
input, so first-seen order is preserved; its `(title.lower(), url.lower())`
keys are pairwise distinct; the first occurrence of each key wins
(appending a pair with an already-present key changes nothing, a new key
appends its cleaned item); and applying it to its own output changes
nothing provided every url it emitted is a fixed point of the URL
normalizer — without that proviso idempotence fails, as the counterexample
shows. -/
theorem unique_items_dedupe_props :
    (∀ xs : List (Str × Str), List.Sublist (unique_items xs) (xs.map cleanPair)) ∧
    (∀ xs : List (Str × Str), ((unique_items xs).map itemKey).Nodup) ∧
    (∀ (xs : List (Str × Str)) (p : Str × Str),
      unique_items (xs ++ [p]) =
        unique_items xs ++
          (if itemKey (cleanPair p) ∈ (unique_items xs).map itemKey then []
           else [cleanPair p])) ∧
    (∀ xs : List (Str × Str),
      (∀ it ∈ unique_items xs, normalize_url it.url none = it.url) →
      unique_items ((unique_items xs).map itemToPair) = unique_items xs) := by
  have hdef : ∀ xs : List (Str × Str),
      unique_items xs = dedupeFirstBy itemKey (xs.map cleanPair) [] := by
    intro xs; exact unique_items_go_eq_dedupe xs []
  have hsub : ∀ xs : List (Str × Str),
      List.Sublist (unique_items xs) (xs.map cleanPair) := by
    intro xs; rw [hdef]; exact dedupeFirstBy_sublist itemKey _ []
  have hnd : ∀ xs : List (Str × Str), ((unique_items xs).map itemKey).Nodup := by
    intro xs; rw [hdef]; exact dedupeFirstBy_nodup_keys itemKey _ []
  refine ⟨hsub, hnd, ?_, ?_⟩
  · intro xs p
    rw [hdef, hdef, List.map_append, dedupeFirstBy_append]
    have h1 : ([p].map cleanPair) = [cleanPair p] := rfl
    rw [h1]
    have hiff := mem_seenAfter itemKey (xs.map cleanPair) [] (itemKey (cleanPair p))
    simp only [List.not_mem_nil, false_or] at hiff
    by_cases hk : itemKey (cleanPair p) ∈ (unique_items xs).map itemKey
    · have hk2 : itemKey (cleanPair p) ∈
          (dedupeFirstBy itemKey (xs.map cleanPair) []).map itemKey := by
        rw [← hdef]; exact hk
      have hk' : itemKey (cleanPair p) ∈ seenAfter itemKey (xs.map cleanPair) [] :=
        hiff.2 hk2
      rw [dedupeFirstBy, if_pos hk', if_pos hk2]
      simp [dedupeFirstBy]
    · have hk2 : itemKey (cleanPair p) ∉
          (dedupeFirstBy itemKey (xs.map cleanPair) []).map itemKey := by
        rw [← hdef]; exact hk
      have hk' : itemKey (cleanPair p) ∉ seenAfter itemKey (xs.map cleanPair) [] :=
        fun hmem => hk2 (hiff.1 hmem)
      rw [dedupeFirstBy, if_neg hk', if_neg hk2]
      simp [dedupeFirstBy]
  · intro xs hfix
    have hclean : ∀ it ∈ unique_items xs, cleanPair (itemToPair it) = it := by
      intro it hit
      have hmem : it ∈ xs.map cleanPair := (hsub xs).subset hit
      rcases List.mem_map.1 hmem with ⟨q, _, hq⟩
      have hurl := hfix it hit
      rcases it with ⟨ti, ui, di⟩
      rw [cleanPair] at hq
      injection hq with h1 h2 h3
      show Item.mk (pstrip ti) (normalize_url ui none) none = Item.mk ti ui di
      rw [← h1, pstrip_idem, h1]
      rw [show normalize_url ui none = ui from hurl, ← h3]
    have hmapeq : ((unique_items xs).map itemToPair).map cleanPair = unique_items xs := by
      rw [List.map_map]
      have := List.map_congr_left (l := unique_items xs)
        (f := cleanPair ∘ itemToPair) (g := id) (fun it hit => hclean it hit)
      rw [this, List.map_id]
    rw [hdef ((unique_items xs).map itemToPair), hmapeq]
    exact dedupeFirstBy_eq_self itemKey _ [] (fun a _ => List.not_mem_nil _) (hnd xs)

/-- Witness: the amended idempotence applied to an input whose output urls
are fixed points of the normalizer. -/
theorem unique_items_dedupe_props_witness :
    unique_items ((unique_items [("T".toList, "https://a/1".toList)]).map itemToPair) =
      unique_items [("T".toList, "https://a/1".toList)] :=
  unique_items_dedupe_props.2.2.2 [("T".toList, "https://a/1".toList)] (by decide)

/-- C2 (counterexample): the deadline parser does not try the claimed
format list — "31 Dec 2025" (day month-abbreviation year) does not parse —
and an item whose non-empty deadline string parses under no format is
dropped by `filter_by_deadline`, not kept. -/
theorem deadline_formats_counterexample :
    parse_deadline_str ("31 Dec 2025".toList) = none ∧
    filter_by_deadline { year := 2025, month := 1, day := 1 }
        [("s".toList,
          [{ title := "T".toList, url := "u".toList, deadline := some ("soon".toList) }])] =
      [("s".toList, ([] : List Item))] := by decide

/-- C2 (amended): `parse_deadline_str` accepts exactly the single format
year-month-day (four-digit year, one- or two-digit month and day,
calendar-validated); the other formats of the claim's list do not parse;
and an item whose non-empty deadline string fails to parse is dropped by
`filter_by_deadline`: every surviving item's deadline is absent, empty, or
parseable. -/
theorem parse_deadline_single_format :
    parse_deadline_str ("2025-12-31".toList) = some { year := 2025, month := 12, day := 31 } ∧
    parse_deadline_str ("31 Dec 2025".toList) = none ∧
    parse_deadline_str ("31 December 2025".toList) = none ∧
    parse_deadline_str ("Dec 31, 2025".toList) = none ∧
    parse_deadline_str ("December 31, 2025".toList) = none ∧
    parse_deadline_str ("31/12/2025".toList) = none ∧
    parse_deadline_str ("12/31/2025".toList) = none ∧
    (∀ (today : Date) (rs : ResultSet), ∀ p ∈ filter_by_deadline today rs, ∀ it ∈ p.2,
        it.deadline = none ∨ it.deadline = some ([] : Str) ∨
          parse_deadline_str (it.deadline.getD []) ≠ none) := by
  refine ⟨by decide, by decide, by decide, by decide, by decide, by decide, by decide, ?_⟩
  intro today rs p hp it hit
  rcases List.mem_map.1 hp with ⟨q, _, hq⟩
  rw [← hq] at hit
  have hkeep : keepByDeadline today it = true := (List.mem_filter.1 hit).2
  cases hdl : it.deadline with
  | none => exact Or.inl rfl
  | some d =>
    rw [keepByDeadline, hdl] at hkeep
    by_cases he : d.isEmpty = true
    · have hd : d = [] := by
        cases d with
        | nil => rfl
        | cons x xs => simp at he
      exact Or.inr (Or.inl (by rw [hd]))
    · refine Or.inr (Or.inr ?_)
      show parse_deadline_str d ≠ none
      cases hp2 : parse_deadline_str d with
      | some dd => simp
      | none =>
        dsimp only at hkeep
        rw [if_neg he, hp2] at hkeep
        simp at hkeep

/-- Witness: the drop-unparsable clause instantiated on a surviving item
with a parseable deadline. -/
theorem parse_deadline_single_format_witness :
    (some ("2025-12-01".toList) : Option Str) = none ∨
      (some ("2025-12-01".toList) : Option Str) = some ([] : Str) ∨
      parse_deadline_str ((some ("2025-12-01".toList) : Option Str).getD []) ≠ none :=
  parse_deadline_single_format.2.2.2.2.2.2.2
    { year := 2025, month := 1, day := 1 }
    [("s".toList,
      [{ title := "T".toList, url := "u".toList, deadline := some ("2025-12-01".toList) }])]
    ("s".toList,
      [{ title := "T".toList, url := "u".toList, deadline := some ("2025-12-01".toList) }])
    (by decide)
    { title := "T".toList, url := "u".toList, deadline := some ("2025-12-01".toList) }
    (by decide)

/-- C4: on a ResultSet whose deadlines are absent, empty, or in
year-month-day form, `filter_by_deadline` keeps exactly the items whose
deadline is absent, empty, or parses to a date at or after `today`,
keeping every source key and the item order within each source; on the
spec's example with today = 2025-06-01 the past deadline "2025-05-01" is
dropped while "2025-12-01" and the absent deadline are kept. -/
theorem filter_by_deadline_keeps_future :
    (∀ (today : Date) (rs : ResultSet),
      (∀ p ∈ rs, ∀ it ∈ p.2, it.deadline = none ∨ it.deadline = some ([] : Str) ∨
          parse_deadline_str (it.deadline.getD []) ≠ none) →
      filter_by_deadline today rs =
        rs.map (fun p => (p.1, p.2.filter (fun it =>
          it.deadline.isNone || (it.deadline.getD []).isEmpty ||
            (match parse_deadline_str (it.deadline.getD []) with
             | some dd => dateLe today dd
             | none => false))))) ∧
    filter_by_deadline { year := 2025, month := 6, day := 1 }
        [("s".toList,
          [{ title := "a".toList, url := [], deadline := some ("2025-05-01".toList) },
           { title := "b".toList, url := [], deadline := some ("2025-12-01".toList) },
           { title := "c".toList, url := [], deadline := none }])] =
      [("s".toList,
        [{ title := "b".toList, url := [], deadline := some ("2025-12-01".toList) },
         { title := "c".toList, url := [], deadline := none }])] := by
  refine ⟨?_, by decide⟩
  intro today rs _
  rw [filter_by_deadline]
  refine List.map_congr_left (fun p _ => ?_)
  have hfun : p.2.filter (keepByDeadline today) =
      p.2.filter (fun it =>
        it.deadline.isNone || (it.deadline.getD []).isEmpty ||
          (match parse_deadline_str (it.deadline.getD []) with
           | some dd => dateLe today dd
           | none => false)) := by
    refine List.filter_congr (fun it _ => ?_)
    cases hdl : it.deadline with
    | none => simp [keepByDeadline, hdl]
    | some d =>
      cases he : d.isEmpty <;> simp [keepByDeadline, hdl, he]
  rw [hfun]

/-- Witness: the general clause of `filter_by_deadline_keeps_future`
instantiated at a singleton ResultSet with an absent deadline. -/
theorem filter_by_deadline_keeps_future_witness :
    filter_by_deadline { year := 2025, month := 6, day := 1 }
        [("s".toList, [{ title := "c".toList, url := [], deadline := none }])] =
      [("s".toList, [{ title := "c".toList, url := [], deadline := none }])] :=
  (filter_by_deadline_keeps_future.1 { year := 2025, month := 6, day := 1 }
      [("s".toList, [{ title := "c".toList, url := [], deadline := none }])]
      (by decide)).trans (by decide)

/-- C5: `normalize_url` follows the spec's priority order — its value on
any raw string (with a base that is not the empty string, whose Python
falsiness would disable resolution) equals the spec-worded normalizer
applied to the whitespace-stripped raw — and the spec's two examples hold:
the embedded URL is recovered with its trailing period stripped, and the
root-relative path is resolved against the base. -/
theorem normalize_url_priority :
    (∀ (raw : Str) (base : Option Str), base ≠ some [] →
        normalize_url raw base = normalize_url_spec (pstrip raw) base) ∧
    normalize_url ("Click here: https://x.org/a?b=1.".toList) none =
      "https://x.org/a?b=1".toList ∧
    normalize_url ("/news/42".toList) (some ("https://x.org".toList)) =
      "https://x.org/news/42".toList := by
  refine ⟨?_, by decide, by decide⟩
  intro raw base hb
  exact normalize_url_eq_spec raw base hb

/-- Witness: the refinement applied at the root-relative example. -/
theorem normalize_url_priority_witness :
    normalize_url ("/news/42".toList) (some ("https://x.org".toList)) =
      normalize_url_spec (pstrip ("/news/42".toList)) (some ("https://x.org".toList)) :=
  normalize_url_priority.1 ("/news/42".toList) (some ("https://x.org".toList)) (by decide)

/-- C6: the light relevance filter keeps a title exactly when no
blocklisted term occurs in it (checked first) and some allowlisted term
occurs in it, case-insensitively; "Hackathon Winner Announcement" is
rejected (blocklist hit) and "National Innovation Challenge 2025" is
accepted. -/
theorem light_filter_spec :
    (∀ title : Str, light_filter_keep title = true ↔
      ((∀ b ∈ lightBlocklist, containsSub b (toLowerS title) = false) ∧
        ∃ a ∈ lightAllowlist, containsSub a (toLowerS title) = true)) ∧
    light_filter_keep ("Hackathon Winner Announcement".toList) = false ∧
    light_filter_keep ("National Innovation Challenge 2025".toList) = true := by
  refine ⟨?_, by decide, by decide⟩
  intro title
  show (if lightBlocklist.any (fun b => containsSub b (toLowerS title)) then false
      else lightAllowlist.any fun a => containsSub a (toLowerS title)) = true ↔ _
  by_cases hb : lightBlocklist.any (fun b => containsSub b (toLowerS title)) = true
  · rw [if_pos hb]
    simp only [Bool.false_eq_true, false_iff, not_and]
    intro hno
    rcases List.any_eq_true.1 hb with ⟨b, hbmem, hbc⟩
    rw [hno b hbmem] at hbc
    simp at hbc
  · rw [if_neg hb]
    have hb' : ∀ b ∈ lightBlocklist, containsSub b (toLowerS title) = false := by
      intro b hbm
      cases hc : containsSub b (toLowerS title) with
      | false => rfl
      | true => exact absurd (List.any_eq_true.2 ⟨b, hbm, hc⟩) hb
    rw [List.any_eq_true]
    constructor
    · rintro ⟨a, ham, hac⟩
      exact ⟨hb', a, ham, hac⟩
    · rintro ⟨_, a, ham, hac⟩
      exact ⟨a, ham, hac⟩

/-- C8 (counterexample): an item with an empty url is still rendered as a
hyperlink line with an empty href, not as plain text: the whole digest for
a singleton ResultSet shows the anchor markup around the title. -/
theorem format_empty_url_counterexample :
    format_message [("a".toList, [{ title := "T".toList, url := [], deadline := none }])] =
      "🔥 <b>Latest Hackathons & Challenges</b>\n\n⭐ <b>A</b>\n• <a href=\"\">T</a>".toList ∧
    containsSub ("<a href=\"\">T</a>".toList)
      (format_message [("a".toList, [{ title := "T".toList, url := [], deadline := none }])]) =
      true := by decide

/-- C8 (amended): `format_message` emits the fixed banner and then, for
each source with at least one item (empty sources skipped), an uppercased
source header followed by at most 10 items, each rendered by
`format_item_html` as a bulleted hyperlink line with the title as display
text and a bolded deadline suffix when a deadline is present — with the
url interpolated verbatim even when empty, there being no plain-text
fallback; when every source maps to an empty list it returns the fixed
"nothing found" sentinel, which is not the empty string. -/
theorem format_message_structure :
    (∀ rs : ResultSet, (rs.all fun p => p.2.isEmpty) = true →
        format_message rs = nothingFound) ∧
    (∀ rs : ResultSet, (rs.all fun p => p.2.isEmpty) = false →
        format_message rs =
          pstrip (bannerLine ++
            ((rs.filter fun p => !p.2.isEmpty).map fun p => siteBlock p.1 p.2).flatten)) ∧
    nothingFound ≠ [] := by
  refine ⟨?_, ?_, by decide⟩
  · intro rs h
    unfold format_message
    rw [format_message_go_spec]
    simp [h]
  · intro rs h
    unfold format_message
    rw [format_message_go_spec]
    simp [h]

/-- Witness: the all-empty case yields the sentinel, and a non-empty case
yields the banner-led digest. -/
theorem format_message_structure_witness :
    format_message [("a".toList, ([] : List Item)), ("b".toList, ([] : List Item))] =
      nothingFound :=
  format_message_structure.1 [("a".toList, []), ("b".toList, [])] (by decide)

/-- C10: `format_item_html` interpolates title and url into the anchor
line verbatim, with no HTML escaping: for any title and url the rendered
line is exactly the concatenation, and on an item whose title and url
contain `<`, `>`, `"` and `&` those characters appear unescaped in the
markup. -/
theorem format_item_html_verbatim :
    (∀ t u : Str, format_item_html { title := t, url := u, deadline := none } =
      "• <a href=\"".toList ++ u ++ "\">".toList ++ t ++ "</a>".toList) ∧
    format_item_html
        { title := "A & <B>\"C".toList, url := "https://e/?a=1&b=2".toList, deadline := none } =
      "• <a href=\"https://e/?a=1&b=2\">A & <B>\"C</a>".toList := by
  refine ⟨?_, by decide⟩
  intro t u
  rfl
